import Mathlib

/-
Verification development for fetch_and_build.py, the schedule-grid extractor.
Cell values, strings and times are shallowly embedded: Python strings become
List Char, datetimes become Int minutes since an arbitrary day-zero epoch, and
fallible parsing returns Option.  Each definition carries a comment pointing at
the source construct it translates.
-/

namespace Stundenplan

/-- Characters that Python treats as whitespace in str.strip and in the regex
class backslash-s, restricted to the ASCII range (the workbook text is ASCII). -/
def pyIsSpace (c : Char) : Bool :=
  c = ' ' || c = '\t' || c = '\n' || c = '\r' || c = '\x0b' || c = '\x0c'

/-- Left part of Python str.strip: drop leading whitespace. -/
def stripLeft (s : List Char) : List Char := s.dropWhile pyIsSpace

/-- Right part of Python str.strip: drop trailing whitespace. -/
def stripRight (s : List Char) : List Char := (s.reverse.dropWhile pyIsSpace).reverse

/-- Python str.strip with no arguments: drop whitespace at both ends. -/
def pyStrip (s : List Char) : List Char := stripRight (stripLeft s)

/-- Python str.lower on each character (ASCII case mapping). -/
def pyLower (s : List Char) : List Char := s.map Char.toLower

/-- Numeric value of a digit character. -/
def digitVal (c : Char) : Nat := c.toNat - 48

/-- Time of day as stored in a dt.time value; the schedule grid is
minute-granular, so seconds are not modelled. -/
structure Tod where
  hour : Nat
  minute : Nat
deriving DecidableEq, Repr

/-- Range check and construction shared by both regex branches of
try_parse_time: if 0 <= hh < 24 and 0 <= mm < 60 return dt.time(hh, mm). -/
def mkTime (hh mm : Nat) : Option Tod :=
  if hh < 24 && mm < 60 then some ⟨hh, mm⟩ else none

/-- Meaning of the anchored regex (\d\x7b1,2\x7d):(\d\x7b2\x7d) used by
try_parse_time: only strings of length 4 or 5 with digits around a colon can
match, with the hour group taking one or two digits. -/
def parseHMM (s : List Char) : Option Tod :=
  match s with
  | [a, b, c, d] =>
    if a.isDigit && decide (b = ':') && c.isDigit && d.isDigit then
      mkTime (digitVal a) (10 * digitVal c + digitVal d)
    else none
  | [a, b, c, d, e] =>
    if a.isDigit && b.isDigit && decide (c = ':') && d.isDigit && e.isDigit then
      mkTime (10 * digitVal a + digitVal b) (10 * digitVal d + digitVal e)
    else none
  | _ => none

/-- Scalar cell value of the worksheet matrix.  empty stands for a missing
cell, which pandas materialises as float nan; time is a native dt.time cell;
datetime is a native dt.datetime cell with its calendar day; text covers every
other value through the str conversion the source applies. -/
inductive Cell where
  | empty
  | time (t : Tod)
  | datetime (y mo d : Nat) (t : Tod)
  | text (s : List Char)
deriving DecidableEq, Repr

/-- Two-digit zero-padded decimal rendering, as Python str uses for times. -/
def pad2 (n : Nat) : List Char :=
  [Char.ofNat (48 + n / 10 % 10), Char.ofNat (48 + n % 10)]

/-- Four-digit zero-padded decimal rendering for years. -/
def pad4 (n : Nat) : List Char :=
  [Char.ofNat (48 + n / 1000 % 10), Char.ofNat (48 + n / 100 % 10),
   Char.ofNat (48 + n / 10 % 10), Char.ofNat (48 + n % 10)]

/-- Python str applied to a cell value, as the source does before stripping.
str of float nan is the text nan; str of dt.time is HH:MM:SS; str of
dt.datetime is the date, a space, and the time. -/
def strOfCell : Cell → List Char
  | Cell.empty => "nan".toList
  | Cell.time t => pad2 t.hour ++ ':' :: pad2 t.minute ++ ':' :: "00".toList
  | Cell.datetime y mo d t =>
      pad4 y ++ '-' :: pad2 mo ++ '-' :: pad2 d ++ ' ' ::
      (pad2 t.hour ++ ':' :: pad2 t.minute ++ ':' :: "00".toList)
  | Cell.text s => s

/-- Embeds try_parse_time: None and nan cells fail, native time cells are
returned as they are, datetime cells are truncated to hour and minute, and any
other value is rendered with str, stripped, and matched against the anchored
H:MM or HH:MM regex with range checks. -/
def try_parse_time : Cell → Option Tod
  | Cell.empty => none
  | Cell.time t => some t
  | Cell.datetime _ _ _ t => some t
  | Cell.text s => parseHMM (pyStrip s)

example : try_parse_time (Cell.text "9:30".toList) = some ⟨9, 30⟩ := by decide
example : try_parse_time (Cell.text " 9:30 ".toList) = some ⟨9, 30⟩ := by decide
example : try_parse_time (Cell.text "24:00".toList) = none := by decide
example : try_parse_time (Cell.text "9:3".toList) = none := by decide

/-- Worksheet matrix: a list of rows of cells, row-major and 0-indexed. -/
abbrev Sheet : Type := List (List Cell)

/-- Embeds df.iat for the bounded loops of the source; indices outside the
populated rectangle stand for missing cells. -/
def iat (df : Sheet) (r c : Nat) : Cell := (List.getD df r []).getD c Cell.empty

/-- Number of time-parsing cells of the time column in the window of rows
range(r, min(r + 10, len(df))), as counted at line 284 of the source. -/
def countTimes (df : Sheet) (timeCol r : Nat) : Nat :=
  (List.range' r (min (r + 10) (List.length df) - r)).countP
    (fun k => (try_parse_time (iat df k timeCol)).isSome)

/-- Condition under which the start-row scan of lines 282-285 stops at row r:
the time column parses at r and the ten-row window starting at r holds at
least three parsing cells. -/
def goodStart (df : Sheet) (timeCol r : Nat) : Bool :=
  (try_parse_time (iat df r timeCol)).isSome && decide (3 ≤ countTimes df timeCol r)

/-- Fuel-indexed scan of the for-loop at line 282; the fuel only bounds the
iteration count and List.length df is always enough. -/
def findStartAux (df : Sheet) (timeCol : Nat) : Nat → Nat → Option Nat
  | 0, _ => none
  | fuel + 1, r =>
    if r < List.length df then
      if goodStart df timeCol r then some r else findStartAux df timeCol fuel (r + 1)
    else none

/-- Embeds the grid-start-row search of lines 280-286. -/
def findStartRow (df : Sheet) (timeCol : Nat) : Option Nat :=
  findStartAux df timeCol (List.length df) 0

/-- Regex alternation step of re.split: at the current position the pattern
backslash-s* pipe backslash-s* matches exactly when a whitespace run leads to
a pipe; on success the pipe and the following whitespace run are consumed. -/
def matchPipeDelim : List Char → Option (List Char)
  | [] => none
  | c :: cs =>
    if c = '|' then some (cs.dropWhile pyIsSpace)
    else if pyIsSpace c then matchPipeDelim cs
    else none

/-- Fuel-indexed scan of re.split over the cell text: at every position the
pipe alternative is tried first, then a lone newline, otherwise the character
belongs to the current segment.  The accumulator keeps the segment reversed. -/
def reSplitAux : Nat → List Char → List Char → List (List Char)
  | 0, acc, _ => [acc.reverse]
  | _ + 1, acc, [] => [acc.reverse]
  | fuel + 1, acc, c :: cs =>
    match matchPipeDelim (c :: cs) with
    | some rest => acc.reverse :: reSplitAux fuel [] rest
    | none =>
      if c = '\n' then acc.reverse :: reSplitAux fuel [] cs
      else reSplitAux fuel (c :: acc) cs

/-- Embeds re.split with the pattern of line 310, splitting the cell on pipes
with surrounding whitespace or on newlines. -/
def reSplitCell (s : List Char) : List (List Char) :=
  reSplitAux (s.length + 1) [] s

/-- Embeds the comprehension of line 310: strip every raw segment and keep the
non-empty results. -/
def pyParts (s : List Char) : List (List Char) :=
  ((reSplitCell s).map pyStrip).filter (fun p => p ≠ [])

/-- Embeds lines 309-313: the first segment is the title, with the whole cell
text as fallback, the second segment the lecturer and the third the room. -/
def splitFields (cell : List Char) : List Char × List Char × List Char :=
  let parts := pyParts cell
  (parts.headD cell, (parts.getD 1 []), (parts.getD 2 []))

example : splitFields "Algorithms | Dr. Smith | R204".toList =
    ("Algorithms".toList, "Dr. Smith".toList, "R204".toList) := by decide
example : splitFields "Algorithms".toList = ("Algorithms".toList, [], []) := by decide

/-- Extracted event record.  Python datetimes become Int minutes since an
arbitrary day-zero epoch; the end field is called stop because end is a
reserved word in Lean. -/
structure Event where
  title : List Char
  lecturer : List Char
  room : List Char
  start : Int
  stop : Int
deriving DecidableEq, Repr

/-- Embeds dt.datetime.combine over the minutes timeline: day number times
1440 plus the minute of day. -/
def combine (day : Int) (t : Tod) : Int :=
  day * 1440 + (t.hour * 60 + t.minute : Nat)

/-- Fuel-indexed while-loop of lines 300-305: starting at row rr, keep moving
down while the time column parses and the day-column text equals the starting
text; returns the first row where the run is broken. -/
def runEndAux (df : Sheet) (timeCol c : Nat) (cellTxt : List Char) : Nat → Nat → Nat
  | 0, rr => rr
  | fuel + 1, rr =>
    if rr < List.length df ∧ (try_parse_time (iat df rr timeCol)).isSome
        ∧ pyStrip (strOfCell (iat df rr c)) = cellTxt
    then runEndAux df timeCol c cellTxt fuel (rr + 1)
    else rr

/-- Run-extension loop with enough fuel for the whole sheet. -/
def runEnd (df : Sheet) (timeCol c : Nat) (cellTxt : List Char) (rr : Nat) : Nat :=
  runEndAux df timeCol c cellTxt (List.length df + 1) rr

/-- Embeds the per-day-column body of lines 296-317 for the row r whose time
column parsed to startT: a blank or nan cell contributes nothing; otherwise
the run is extended downward, the end time is read from the last row of the
run and receives the five-minute grace period, and the cell text is split into
title, lecturer and room.  A missing end time, impossible when row r itself
parses, also contributes nothing. -/
def cellEvent (df : Sheet) (timeCol : Nat) (colDates : Nat → Int) (r c : Nat)
    (startT : Tod) : Option Event :=
  let cellTxt := pyStrip (strOfCell (iat df r c))
  if cellTxt = [] ∨ pyLower cellTxt = "nan".toList then none
  else
    match try_parse_time (iat df (runEnd df timeCol c cellTxt (r + 1) - 1) timeCol) with
    | none => none
    | some endT =>
      let f := splitFields cellTxt
      some { title := f.1, lecturer := f.2.1, room := f.2.2,
             start := combine (colDates c) startT,
             stop := combine (colDates c) endT + 5 }

/-- Embeds one iteration of the while-loop at lines 290-318: a row whose time
column does not parse yields nothing, otherwise every day column is tried in
ascending order. -/
def rowEvents (df : Sheet) (timeCol : Nat) (dayCols : List Nat) (colDates : Nat → Int)
    (r : Nat) : List Event :=
  match try_parse_time (iat df r timeCol) with
  | none => []
  | some t => dayCols.filterMap (fun c => cellEvent df timeCol colDates r c t)

/-- Events of one worksheet given its grid anchors: the outer loop of lines
289-318 visits every row from the start row to the bottom, advancing one row
at a time.  A worksheet without a start row yields no events (line 286). -/
def sheetEvents (df : Sheet) (timeCol : Nat) (dayCols : List Nat)
    (colDates : Nat → Int) : List Event :=
  match findStartRow df timeCol with
  | none => []
  | some r0 =>
    ((List.range' r0 (List.length df - r0)).map
      (rowEvents df timeCol dayCols colDates)).flatten

/-- Deduplication key type of line 322: the exact five-tuple of event
fields. -/
abbrev EKey : Type := List Char × List Char × List Char × Int × Int

/-- Deduplication key of line 322 for one event. -/
def eventKey (e : Event) : EKey :=
  (e.title, e.lecturer, e.room, e.start, e.stop)

/-- Key membership in the ordered association list that models the Python
dict. -/
def hasKey (m : List (EKey × Event)) (k : EKey) : Bool :=
  m.any (fun p => decide (p.1 = k))

/-- Python dict insertion on an ordered association list: an existing key has
its value overwritten in place, a new key is appended at the end. -/
def dictInsert (m : List (EKey × Event)) (k : EKey) (v : Event) :
    List (EKey × Event) :=
  if hasKey m k then
    m.map (fun p => if p.1 = k then (k, v) else p)
  else m ++ [(k, v)]

/-- Dict comprehension of line 322 folded over the event list. -/
def dedupFold (m : List (EKey × Event)) (es : List Event) : List (EKey × Event) :=
  es.foldl (fun acc e => dictInsert acc (eventKey e) e) m

/-- Embeds lines 322-323: build the keyed dict and return its values in
insertion order. -/
def dedupEvents (es : List Event) : List Event :=
  (dedupFold [] es).map Prod.snd

/-- Embeds lines 321-323: drop degenerate events, then deduplicate. -/
def postprocess (es : List Event) : List Event :=
  dedupEvents (es.filter (fun e => decide (e.start < e.stop)))

/-- Embeds the retention predicate of line 390: keep an event when its end is
at most seven days in the past and its start at most 120 days in the future. -/
def retentionKeep (now : Int) (e : Event) : Bool :=
  decide (now - 7 * 1440 ≤ e.stop) && decide (e.start ≤ now + 120 * 1440)

/-- Retention filter applied to the extracted events in main. -/
def retentionFilter (now : Int) (es : List Event) : List Event :=
  es.filter (retentionKeep now)

/-- Calendar entry produced by build_ics for one event; the ics attributes
name, begin, end, description and location become the fields below. -/
structure IcsEntry where
  name : List Char
  beginTime : Int
  endTime : Int
  description : List Char
  location : List Char
deriving DecidableEq, Repr

/-- Embeds the loop body of lines 331-337: description lines carry the German
labels Dozent and Raum, joined with newlines when present, and the location
falls back to the empty string through the Python or. -/
def icsEntryOf (e : Event) : IcsEntry :=
  let desc := (if e.lecturer ≠ [] then ["Dozent: ".toList ++ e.lecturer] else [])
           ++ (if e.room ≠ [] then ["Raum: ".toList ++ e.room] else [])
  { name := e.title, beginTime := e.start, endTime := e.stop,
    description := if desc ≠ [] then List.intercalate "\n".toList desc else [],
    location := if e.room ≠ [] then e.room else [] }

/-- Embeds build_ics as the list of entries, one per event; the ics library
assigns every entry a fresh uid so the set it stores never merges two of
them. -/
def build_ics (events : List Event) : List IcsEntry :=
  events.map icsEntryOf

/-- Exact two-digit test, the meaning of re.fullmatch over the pattern of two
decimal digits used in list_kw_sheets. -/
def isTwoDigits (s : List Char) : Bool :=
  match s with
  | [a, b] => a.isDigit && b.isDigit
  | _ => false

/-- Python slicing s[-2:]: the trailing two characters, or the whole string
when it is shorter. -/
def lastTwo (s : List Char) : List Char := s.drop (s.length - 2)

/-- Python str.zfill(2): left-pad with zeros to length two, keeping a leading
sign character in front of the padding. -/
def zfill2 (s : List Char) : List Char :=
  if 2 ≤ s.length then s
  else
    match s with
    | [] => ['0', '0']
    | [c] => if c = '+' ∨ c = '-' then [c, '0'] else ['0', c]
    | _ => s

/-- Membership test of lines 216-220: a sheet name is kept when it is two
digits, when its zero-padded form is two digits, or when its trailing two
characters are two digits. -/
def kwFilter (s : List Char) : Bool :=
  isTwoDigits s || isTwoDigits (zfill2 s) || isTwoDigits (lastTwo s)

/-- Decimal value of a non-empty all-digit string. -/
def digitsVal (s : List Char) : Option Nat :=
  if s ≠ [] ∧ s.all Char.isDigit then
    some (s.foldl (fun acc c => 10 * acc + digitVal c) 0)
  else none

/-- Python int applied to a string: strip whitespace, allow one sign, then
require decimal digits; digit-group underscores and non-ASCII digits are not
modelled because sheet-name suffixes never contain them. -/
def pyIntOpt (s : List Char) : Option Int :=
  match pyStrip s with
  | [] => none
  | c :: cs =>
    if c = '-' then (digitsVal cs).map (fun n => -(n : Int))
    else if c = '+' then (digitsVal cs).map (fun n => (n : Int))
    else (digitsVal (c :: cs)).map (fun n => (n : Int))

/-- Sort key of lines 221-223: the integer value of the trailing two
characters, or 999 when they do not parse. -/
def keyf (s : List Char) : Int :=
  match pyIntOpt (lastTwo s) with
  | some n => n
  | none => 999

/-- Stable insertion into a keyf-sorted list: the new element goes before the
first element whose key is not smaller, so elements with equal keys keep
their original relative order. -/
def insByKey (x : List Char) : List (List Char) → List (List Char)
  | [] => [x]
  | y :: ys => if keyf y < keyf x then y :: insByKey x ys else x :: y :: ys

/-- Stable sort by keyf; Python sorted with a key function is the stable sort
by that key, which insertion from the right reproduces. -/
def sortByKeyf (l : List (List Char)) : List (List Char) :=
  l.foldr insByKey []

/-- Embeds list_kw_sheets at lines 214-224: filter the sheet names, then sort
them by the numeral of the trailing two characters. -/
def list_kw_sheets (names : List (List Char)) : List (List Char) :=
  sortByKeyf (names.filter kwFilter)

example : list_kw_sheets ["KW41".toList, "40".toList, "notes".toList] =
    ["40".toList, "KW41".toList] := by decide

/-- Modelled from the claim wording of C2: a start row must have at least
three parsing cells among the ten rows following it, the row itself not
counted. -/
def specGoodStart (df : Sheet) (timeCol r : Nat) : Bool :=
  (try_parse_time (iat df r timeCol)).isSome &&
    decide (3 ≤ (List.range' (r + 1) (min (r + 11) (List.length df) - (r + 1))).countP
      (fun k => (try_parse_time (iat df k timeCol)).isSome))

/-- Modelled from the claim wording of C2: first row satisfying the claim
condition, scanning from row 0. -/
def specStartRow (df : Sheet) (timeCol : Nat) : Option Nat :=
  (List.range (List.length df)).find? (specGoodStart df timeCol)

/-- Modelled from the claim wording of C3: the trailing two characters form a
two-digit numeral or the name itself is exactly two digits. -/
def specKwSelect (s : List Char) : Bool :=
  isTwoDigits (lastTwo s) || isTwoDigits s

/-- Amended selection predicate for C3: the trailing two characters are two
digits, or the name is a single digit, or the name is empty, the last two
cases arising from the zero padding in the source. -/
def specKwAmended (s : List Char) : Bool :=
  isTwoDigits (lastTwo s) ||
    (match s with
     | [] => true
     | [c] => c.isDigit
     | _ => false)

/-- Modelled from the claim wording of C8: the string itself, with no
whitespace stripping, is one digit or two digits, a colon, and two digits,
denoting the stated hour and minute values. -/
def specHMMForm (s : List Char) (h m : Nat) : Prop :=
  (∃ a c d, s = [a, ':', c, d] ∧ a.isDigit = true ∧ c.isDigit = true ∧ d.isDigit = true ∧
    h = digitVal a ∧ m = 10 * digitVal c + digitVal d) ∨
  (∃ a b c d, s = [a, b, ':', c, d] ∧ a.isDigit = true ∧ b.isDigit = true ∧
    c.isDigit = true ∧ d.isDigit = true ∧
    h = 10 * digitVal a + digitVal b ∧ m = 10 * digitVal c + digitVal d)

/-- Modelled from the claim wording of C8: the whole time parser the claim
describes, with no whitespace stripping before the format match. -/
def specTimeOfText (s : List Char) : Option Tod := parseHMM s

/-- Modelled from the claim wording of C9: description lines with the English
labels the claim states. -/
def specDescription (e : Event) : List Char :=
  List.intercalate "\n".toList
    ((if e.lecturer ≠ [] then ["Lecturer: ".toList ++ e.lecturer] else [])
      ++ (if e.room ≠ [] then ["Room: ".toList ++ e.room] else []))

/-- Worksheet reproducing the end-to-end scenario of the spec: a three-slot
time column and one day column whose first two rows carry the same cell
text. -/
def sheet41 : Sheet :=
  [[Cell.text "9:00".toList, Cell.text "Networks | Dr. X | R1".toList],
   [Cell.text "9:45".toList, Cell.text "Networks | Dr. X | R1".toList],
   [Cell.text "10:30".toList, Cell.text "Maths".toList]]

example : findStartRow sheet41 0 = some 0 := by decide

/-- Three-row sheet whose time column parses everywhere; with only two rows
after row 0 it can never satisfy the following-ten-rows reading of the start
condition. -/
def sheet3 : Sheet :=
  [[Cell.text "9:00".toList], [Cell.text "9:45".toList], [Cell.text "10:30".toList]]

example : findStartRow sheet3 0 = some 0 := by decide
example : specStartRow sheet3 0 = none := by decide

/-- Key equality determines event equality: the dict key is the whole record. -/
theorem eventKey_inj {e f : Event} (h : eventKey e = eventKey f) : e = f := by
  cases e; cases f
  simp only [eventKey, Prod.mk.injEq] at h
  obtain ⟨h1, h2, h3, h4, h5⟩ := h
  simp [h1, h2, h3, h4, h5]

/-- Invariant of the dict model: every stored pair binds a key to an event
with exactly that key. -/
def KeyInv (m : List (EKey × Event)) : Prop :=
  ∀ p ∈ m, p.1 = eventKey p.2

theorem keyInv_nil : KeyInv [] := by
  intro p hp; cases hp

theorem keyInv_dictInsert {m : List (EKey × Event)} (h : KeyInv m) (e : Event) :
    KeyInv (dictInsert m (eventKey e) e) := by
  unfold dictInsert
  split
  · intro p hp
    rw [List.mem_map] at hp
    obtain ⟨q, hq, rfl⟩ := hp
    by_cases hk : q.1 = eventKey e
    · simp [hk]
    · simp only [if_neg hk]
      exact h q hq
  · intro p hp
    rw [List.mem_append] at hp
    rcases hp with hp | hp
    · exact h p hp
    · rw [List.mem_singleton] at hp
      subst hp; rfl

theorem keyInv_dedupFold {m : List (EKey × Event)} (h : KeyInv m) (es : List Event) :
    KeyInv (dedupFold m es) := by
  induction es generalizing m with
  | nil => exact h
  | cons a as ih =>
    show KeyInv (dedupFold (dictInsert m (eventKey a) a) as)
    exact ih (keyInv_dictInsert h a)

theorem hasKey_dictInsert_self (m : List (EKey × Event)) (k : EKey) (v : Event) :
    hasKey (dictInsert m k v) k = true := by
  unfold dictInsert
  split
  · next hcond =>
    rw [hasKey, List.any_eq_true] at hcond ⊢
    obtain ⟨p, hp, hpk⟩ := hcond
    rw [decide_eq_true_eq] at hpk
    refine ⟨(k, v), List.mem_map.mpr ⟨p, hp, ?_⟩, by simp⟩
    simp [hpk]
  · rw [hasKey, List.any_append]
    simp [hasKey]

theorem hasKey_dictInsert_mono {m : List (EKey × Event)} {k : EKey}
    (h : hasKey m k = true) (k' : EKey) (v : Event) :
    hasKey (dictInsert m k' v) k = true := by
  unfold dictInsert
  split
  · rw [hasKey, List.any_eq_true] at h ⊢
    obtain ⟨p, hp, hpk⟩ := h
    rw [decide_eq_true_eq] at hpk
    refine ⟨if p.1 = k' then (k', v) else p, List.mem_map.mpr ⟨p, hp, rfl⟩, ?_⟩
    by_cases hk : p.1 = k'
    · rw [if_pos hk]
      simp [← hk, hpk]
    · rw [if_neg hk]
      simp [hpk]
  · simp only [hasKey] at h ⊢
    rw [List.any_append]
    simp [h]

theorem hasKey_dedupFold_mono {m : List (EKey × Event)} {k : EKey}
    (h : hasKey m k = true) (es : List Event) :
    hasKey (dedupFold m es) k = true := by
  induction es generalizing m with
  | nil => exact h
  | cons a as ih =>
    show hasKey (dedupFold (dictInsert m (eventKey a) a) as) k = true
    exact ih (hasKey_dictInsert_mono h _ _)

theorem hasKey_dedupFold_of_mem {es : List Event} {e : Event} (h : e ∈ es)
    (m : List (EKey × Event)) : hasKey (dedupFold m es) (eventKey e) = true := by
  induction es generalizing m with
  | nil => cases h
  | cons a as ih =>
    rcases List.mem_cons.mp h with rfl | hmem
    · show hasKey (dedupFold (dictInsert m (eventKey e) e) as) (eventKey e) = true
      exact hasKey_dedupFold_mono (hasKey_dictInsert_self m _ e) as
    · exact ih hmem _

theorem map_self {α : Type} (l : List α) (f : α → α) (h : ∀ a ∈ l, f a = a) :
    l.map f = l := by
  calc l.map f = l.map id := List.map_congr_left h
  _ = l := List.map_id l

theorem dictInsert_noop {m : List (EKey × Event)} {e : Event} (hinv : KeyInv m)
    (h : hasKey m (eventKey e) = true) : dictInsert m (eventKey e) e = m := by
  unfold dictInsert
  rw [h]
  simp only [if_true]
  apply map_self
  intro p hp
  by_cases hk : p.1 = eventKey e
  · have hval : p.2 = e := eventKey_inj (by rw [← hinv p hp, hk])
    rw [if_pos hk, ← hk, ← hval]
  · rw [if_neg hk]

theorem dedupFold_noop {m : List (EKey × Event)} {es : List Event} (hinv : KeyInv m)
    (h : ∀ e ∈ es, hasKey m (eventKey e) = true) : dedupFold m es = m := by
  induction es with
  | nil => rfl
  | cons a as ih =>
    show dedupFold (dictInsert m (eventKey a) a) as = m
    rw [dictInsert_noop hinv (h a (List.mem_cons_self a as))]
    exact ih (fun e he => h e (List.mem_cons_of_mem a he))

theorem mem_dictInsert {m : List (EKey × Event)} {k : EKey} {v : Event}
    {p : EKey × Event} (hp : p ∈ dictInsert m k v) : p ∈ m ∨ p = (k, v) := by
  unfold dictInsert at hp
  split at hp
  · rw [List.mem_map] at hp
    obtain ⟨q, hq, rfl⟩ := hp
    by_cases hk : q.1 = k
    · right; rw [if_pos hk]
    · left; rw [if_neg hk]; exact hq
  · rw [List.mem_append] at hp
    rcases hp with hp | hp
    · exact Or.inl hp
    · rw [List.mem_singleton] at hp
      exact Or.inr hp

theorem mem_dedupFold {es : List Event} {m : List (EKey × Event)}
    {p : EKey × Event} (hp : p ∈ dedupFold m es) : p ∈ m ∨ p.2 ∈ es := by
  induction es generalizing m with
  | nil => exact Or.inl hp
  | cons a as ih =>
    have hp2 : p ∈ dedupFold (dictInsert m (eventKey a) a) as := hp
    rcases ih hp2 with hin | hin
    · rcases mem_dictInsert hin with hin2 | hin2
      · exact Or.inl hin2
      · right; rw [hin2]; exact List.mem_cons_self a as
    · exact Or.inr (List.mem_cons_of_mem a hin)

theorem mem_of_mem_dedupEvents {es : List Event} {e : Event}
    (h : e ∈ dedupEvents es) : e ∈ es := by
  unfold dedupEvents at h
  rw [List.mem_map] at h
  obtain ⟨p, hp, rfl⟩ := h
  rcases mem_dedupFold hp with hin | hin
  · cases hin
  · exact hin

/-- Head of a dropWhile result always fails the predicate. -/
theorem dropWhile_head_false {α : Type} {p : α → Bool} :
    ∀ (l : List α) {h : α} {t : List α}, List.dropWhile p l = h :: t → p h = false := by
  intro l
  induction l with
  | nil => intro h t hyp; cases hyp
  | cons a as ih =>
    intro h t hyp
    rw [List.dropWhile_cons] at hyp
    cases ha : p a with
    | true => rw [ha, if_pos rfl] at hyp; exact ih hyp
    | false =>
      rw [ha] at hyp
      simp only [Bool.false_eq_true, if_false] at hyp
      injection hyp with h1 _
      rw [← h1]; exact ha

/-- Dropping a prefix twice is the same as dropping it once. -/
theorem dropWhile_dropWhile {α : Type} {p : α → Bool} (l : List α) :
    List.dropWhile p (List.dropWhile p l) = List.dropWhile p l := by
  cases hd : List.dropWhile p l with
  | nil => rfl
  | cons h t =>
    rw [List.dropWhile_cons, dropWhile_head_false l hd]
    simp

/-- Stripping the right end keeps a non-whitespace head exposed, so a further
left strip is the identity. -/
theorem stripLeft_stripRight_of_head {h : Char} {t : List Char}
    (hh : pyIsSpace h = false) :
    stripLeft (stripRight (h :: t)) = stripRight (h :: t) := by
  unfold stripLeft stripRight
  rw [List.reverse_cons, List.dropWhile_append]
  by_cases he : (List.dropWhile pyIsSpace t.reverse).isEmpty = true
  · simp only [if_pos he]
    simp [List.dropWhile_cons, hh]
  · simp only [if_neg he]
    simp [List.reverse_append, List.dropWhile_cons, hh]

/-- Right strip is idempotent. -/
theorem stripRight_stripRight (l : List Char) :
    stripRight (stripRight l) = stripRight l := by
  unfold stripRight
  rw [List.reverse_reverse, dropWhile_dropWhile]

/-- Python str.strip is idempotent. -/
theorem pyStrip_idem (s : List Char) : pyStrip (pyStrip s) = pyStrip s := by
  unfold pyStrip
  cases hA : stripLeft s with
  | nil =>
    have h0 : stripRight ([] : List Char) = [] := rfl
    rw [h0]
    rw [show stripLeft ([] : List Char) = [] from rfl, h0]
  | cons h t =>
    have hh : pyIsSpace h = false := dropWhile_head_false s hA
    rw [stripLeft_stripRight_of_head hh, stripRight_stripRight]

/-- Every part produced at line 310 is non-empty and already stripped. -/
theorem pyParts_mem {cell p : List Char} (hp : p ∈ pyParts cell) :
    p ≠ [] ∧ pyStrip p = p := by
  unfold pyParts at hp
  rw [List.mem_filter] at hp
  obtain ⟨hmem, hne⟩ := hp
  rw [List.mem_map] at hmem
  obtain ⟨q, _, rfl⟩ := hmem
  exact ⟨by simpa using hne, pyStrip_idem q⟩

/-- Rows outside the populated rectangle never satisfy the start condition. -/
theorem goodStart_lt {df : Sheet} {c r : Nat} (h : goodStart df c r = true) :
    r < List.length df := by
  by_contra hge
  push_neg at hge
  have hrow : List.getD df r [] = [] := by
    rw [List.getD_eq_getElem?_getD, List.getElem?_eq_none hge]
    rfl
  have hia : iat df r c = Cell.empty := by
    unfold iat
    rw [hrow]
    simp [List.getD]
  unfold goodStart at h
  rw [hia] at h
  simp [try_parse_time] at h

/-- Characterisation of the bounded start-row scan: with enough fuel it
returns exactly the least row satisfying the start condition at or after r. -/
theorem findStartAux_some_iff (df : Sheet) (c : Nat) :
    ∀ (fuel r r0 : Nat), List.length df ≤ r + fuel →
      (findStartAux df c fuel r = some r0 ↔
        (r ≤ r0 ∧ goodStart df c r0 = true ∧
          ∀ q, r ≤ q → q < r0 → goodStart df c q = false)) := by
  intro fuel
  induction fuel with
  | zero =>
    intro r r0 hle
    constructor
    · intro h; rw [findStartAux] at h; cases h
    · rintro ⟨hr, hg, _⟩
      have := goodStart_lt hg
      omega
  | succ fuel ih =>
    intro r r0 hle
    rw [findStartAux]
    by_cases hr : r < List.length df
    · rw [if_pos hr]
      by_cases hg : goodStart df c r = true
      · rw [if_pos hg]
        constructor
        · intro h
          injection h with h
          subst h
          exact ⟨Nat.le_refl _, hg, fun q h1 h2 => by omega⟩
        · rintro ⟨hr0, _, hall⟩
          rcases Nat.eq_or_lt_of_le hr0 with heq | hlt
          · rw [heq]
          · rw [hall r (Nat.le_refl _) hlt] at hg; cases hg
      · rw [if_neg hg]
        have hg0 : goodStart df c r = false := by
          cases hgb : goodStart df c r
          · rfl
          · exact absurd hgb hg
        rw [ih (r + 1) r0 (by omega)]
        constructor
        · rintro ⟨h1, h2, h3⟩
          refine ⟨by omega, h2, fun q hq1 hq2 => ?_⟩
          rcases Nat.eq_or_lt_of_le hq1 with heq | hlt
          · rw [← heq]; exact hg0
          · exact h3 q hlt hq2
        · rintro ⟨h1, h2, h3⟩
          have hne : r ≠ r0 := by
            intro heq
            rw [heq] at hg0
            rw [hg0] at h2
            cases h2
          exact ⟨by omega, h2, fun q hq1 hq2 => h3 q (by omega) hq2⟩
    · rw [if_neg hr]
      constructor
      · intro h; cases h
      · rintro ⟨h1, h2, _⟩
        have := goodStart_lt h2
        omega

/-- Membership after stable insertion. -/
theorem mem_insByKey {x y : List Char} :
    ∀ {l : List (List Char)}, y ∈ insByKey x l → y = x ∨ y ∈ l := by
  intro l
  induction l with
  | nil =>
    intro h
    rw [insByKey, List.mem_singleton] at h
    exact Or.inl h
  | cons a as ih =>
    intro h
    rw [insByKey] at h
    split at h
    · rcases List.mem_cons.mp h with rfl | h2
      · exact Or.inr (List.mem_cons_self _ _)
      · rcases ih h2 with h3 | h3
        · exact Or.inl h3
        · exact Or.inr (List.mem_cons_of_mem _ h3)
    · rcases List.mem_cons.mp h with rfl | h2
      · exact Or.inl rfl
      · exact Or.inr h2

/-- Stable insertion preserves sortedness by the sheet key. -/
theorem pairwise_insByKey {x : List Char} :
    ∀ {l : List (List Char)}, List.Pairwise (fun a b => keyf a ≤ keyf b) l →
      List.Pairwise (fun a b => keyf a ≤ keyf b) (insByKey x l) := by
  intro l
  induction l with
  | nil => intro _; simp [insByKey]
  | cons a as ih =>
    intro h
    rw [List.pairwise_cons] at h
    obtain ⟨ha, hp⟩ := h
    rw [insByKey]
    split
    · next hlt =>
      rw [List.pairwise_cons]
      refine ⟨fun b hb => ?_, ih hp⟩
      rcases mem_insByKey hb with rfl | hbmem
      · omega
      · exact ha b hbmem
    · next hnlt =>
      rw [List.pairwise_cons]
      refine ⟨fun b hb => ?_, List.pairwise_cons.mpr ⟨ha, hp⟩⟩
      rcases List.mem_cons.mp hb with rfl | hbmem
      · omega
      · have := ha b hbmem
        omega

/-- The embedded sort really sorts by the sheet key. -/
theorem pairwise_sortByKeyf (l : List (List Char)) :
    List.Pairwise (fun a b => keyf a ≤ keyf b) (sortByKeyf l) := by
  induction l with
  | nil => simp [sortByKeyf]
  | cons a as ih => exact pairwise_insByKey ih

/-- Correctness of the embedded regex match: parseHMM succeeds exactly on
the digit-colon-digit shapes of specHMMForm with in-range hour and minute. -/
theorem parseHMM_some_iff :
    ∀ (t : List Char) (h m : Nat),
      parseHMM t = some ⟨h, m⟩ ↔ (specHMMForm t h m ∧ h < 24 ∧ m < 60) := by
  intro t h m
  match t with
  | [] => simp [parseHMM, specHMMForm]
  | [a] => simp [parseHMM, specHMMForm]
  | [a, b] => simp [parseHMM, specHMMForm]
  | [a, b, c] => simp [parseHMM, specHMMForm]
  | [a, b, c, d] =>
    rw [show parseHMM [a, b, c, d] =
      (if a.isDigit && decide (b = ':') && c.isDigit && d.isDigit then
        mkTime (digitVal a) (10 * digitVal c + digitVal d) else none) from rfl]
    by_cases hcond : (a.isDigit && decide (b = ':') && c.isDigit && d.isDigit) = true
    · rw [if_pos hcond]
      simp only [Bool.and_eq_true, decide_eq_true_eq] at hcond
      obtain ⟨⟨⟨ha, hb⟩, hc⟩, hd⟩ := hcond
      subst hb
      unfold mkTime
      by_cases hrange : (digitVal a < 24 && (10 * digitVal c + digitVal d) < 60) = true
      · rw [if_pos hrange]
        simp only [Bool.and_eq_true, decide_eq_true_eq] at hrange
        constructor
        · intro heq
          injection heq with heq
          injection heq with hh hm
          subst hh; subst hm
          exact ⟨Or.inl ⟨a, c, d, rfl, ha, hc, hd, rfl, rfl⟩, hrange.1, hrange.2⟩
        · rintro ⟨hform, hh, hm⟩
          rcases hform with ⟨x, y, z, hs, _, _, _, hhv, hmv⟩ | ⟨x, w, y, z, hs, _⟩
          · injection hs with e1 hs; injection hs with e2 hs; injection hs with e3 hs
            injection hs with e4 _
            subst e1; subst e3; subst e4
            subst hhv; subst hmv
            rfl
          · injection hs with e1 hs; injection hs with e2 hs; injection hs with e3 hs
            injection hs with e4 hs
            cases hs
      · rw [if_neg hrange]
        constructor
        · intro heq; cases heq
        · rintro ⟨hform, hh, hm⟩
          exfalso
          rcases hform with ⟨x, y, z, hs, _, _, _, hhv, hmv⟩ | ⟨x, w, y, z, hs, _⟩
          · injection hs with e1 hs; injection hs with e2 hs; injection hs with e3 hs
            injection hs with e4 _
            subst e1; subst e3; subst e4
            subst hhv; subst hmv
            simp only [Bool.and_eq_true, decide_eq_true_eq] at hrange
            omega
          · injection hs with e1 hs; injection hs with e2 hs; injection hs with e3 hs
            injection hs with e4 hs
            cases hs
    · rw [if_neg hcond]
      constructor
      · intro heq; cases heq
      · rintro ⟨hform, hh, hm⟩
        exfalso
        rcases hform with ⟨x, y, z, hs, hx, hy, hz, _, _⟩ | ⟨x, w, y, z, hs, _⟩
        · injection hs with e1 hs; injection hs with e2 hs; injection hs with e3 hs
          injection hs with e4 _
          subst e1; subst e2; subst e3; subst e4
          apply hcond
          simp [hx, hy, hz]
        · injection hs with e1 hs; injection hs with e2 hs; injection hs with e3 hs
          injection hs with e4 hs
          cases hs
  | [a, b, c, d, e] =>
    rw [show parseHMM [a, b, c, d, e] =
      (if a.isDigit && b.isDigit && decide (c = ':') && d.isDigit && e.isDigit then
        mkTime (10 * digitVal a + digitVal b) (10 * digitVal d + digitVal e)
      else none) from rfl]
    by_cases hcond : (a.isDigit && b.isDigit && decide (c = ':') && d.isDigit && e.isDigit) = true
    · rw [if_pos hcond]
      simp only [Bool.and_eq_true, decide_eq_true_eq] at hcond
      obtain ⟨⟨⟨⟨ha, hb⟩, hc⟩, hd⟩, he⟩ := hcond
      subst hc
      unfold mkTime
      by_cases hrange :
          (10 * digitVal a + digitVal b < 24 && (10 * digitVal d + digitVal e) < 60) = true
      · rw [if_pos hrange]
        simp only [Bool.and_eq_true, decide_eq_true_eq] at hrange
        constructor
        · intro heq
          injection heq with heq
          injection heq with hh hm
          subst hh; subst hm
          exact ⟨Or.inr ⟨a, b, d, e, rfl, ha, hb, hd, he, rfl, rfl⟩, hrange.1, hrange.2⟩
        · rintro ⟨hform, hh, hm⟩
          rcases hform with ⟨x, y, z, hs, _⟩ | ⟨x, w, y, z, hs, _, _, _, _, hhv, hmv⟩
          · injection hs with e1 hs; injection hs with e2 hs; injection hs with e3 hs
            injection hs with e4 hs
            cases hs
          · injection hs with e1 hs; injection hs with e2 hs; injection hs with e3 hs
            injection hs with e4 hs; injection hs with e5 hs
            subst e1; subst e2; subst e4; subst e5
            subst hhv; subst hmv
            rfl
      · rw [if_neg hrange]
        constructor
        · intro heq; cases heq
        · rintro ⟨hform, hh, hm⟩
          exfalso
          rcases hform with ⟨x, y, z, hs, _⟩ | ⟨x, w, y, z, hs, _, _, _, _, hhv, hmv⟩
          · injection hs with e1 hs; injection hs with e2 hs; injection hs with e3 hs
            injection hs with e4 hs
            cases hs
          · injection hs with e1 hs; injection hs with e2 hs; injection hs with e3 hs
            injection hs with e4 hs; injection hs with e5 hs
            subst e1; subst e2; subst e4; subst e5
            subst hhv; subst hmv
            simp only [Bool.and_eq_true, decide_eq_true_eq] at hrange
            omega
    · rw [if_neg hcond]
      constructor
      · intro heq; cases heq
      · rintro ⟨hform, hh, hm⟩
        exfalso
        rcases hform with ⟨x, y, z, hs, _⟩ | ⟨x, w, y, z, hs, hx, hw, hy, hz, _, _⟩
        · injection hs with e1 hs; injection hs with e2 hs; injection hs with e3 hs
          injection hs with e4 hs
          cases hs
        · injection hs with e1 hs; injection hs with e2 hs; injection hs with e3 hs
          injection hs with e4 hs; injection hs with e5 hs
          subst e1; subst e2; subst e3; subst e4; subst e5
          apply hcond
          simp [hx, hw, hy, hz]
  | a :: b :: c :: d :: e :: f :: rest =>
    rw [show parseHMM (a :: b :: c :: d :: e :: f :: rest) = none from rfl]
    constructor
    · intro heq; cases heq
    · rintro ⟨hform, _, _⟩
      exfalso
      rcases hform with ⟨x, y, z, hs, _⟩ | ⟨x, w, y, z, hs, _⟩
      · injection hs with e1 hs; injection hs with e2 hs; injection hs with e3 hs
        injection hs with e4 hs
        cases hs
      · injection hs with e1 hs; injection hs with e2 hs; injection hs with e3 hs
        injection hs with e4 hs; injection hs with e5 hs
        cases hs

/-- Selection predicate of list_kw_sheets, rewritten by name length: two
trailing digits, or a single digit name, or an empty name. -/
theorem kwFilter_eq_specKwAmended (s : List Char) : kwFilter s = specKwAmended s := by
  match s with
  | [] => decide
  | [c] =>
    have h1 : isTwoDigits [c] = false := rfl
    have h2 : lastTwo [c] = [c] := rfl
    have hz : zfill2 [c] = if c = '+' ∨ c = '-' then [c, '0'] else ['0', c] := rfl
    have hl : specKwAmended [c] = (isTwoDigits [c] || c.isDigit) := rfl
    rw [hl, kwFilter, hz, h2, h1]
    by_cases hc : c = '+' ∨ c = '-'
    · rw [if_pos hc]
      have hcd : c.isDigit = false := by rcases hc with rfl | rfl <;> rfl
      have h3 : isTwoDigits [c, '0'] = (c.isDigit && '0'.isDigit) := rfl
      rw [h3, hcd]
      rfl
    · rw [if_neg hc]
      have h3 : isTwoDigits ['0', c] = ('0'.isDigit && c.isDigit) := rfl
      rw [h3]
      cases hcd : c.isDigit <;> simp [hcd]
  | [c, d] =>
    have h1 : zfill2 [c, d] = [c, d] := rfl
    have h2 : lastTwo [c, d] = [c, d] := rfl
    have hl : specKwAmended [c, d] = (isTwoDigits [c, d] || false) := rfl
    rw [hl, kwFilter, h1, h2]
    cases hb : isTwoDigits [c, d] <;> simp [hb]
  | c :: d :: e :: rest =>
    have hlen : 2 ≤ (c :: d :: e :: rest).length := by
      simp [List.length_cons]
    have hz : zfill2 (c :: d :: e :: rest) = c :: d :: e :: rest := by
      rw [zfill2, if_pos hlen] <;> simp
    have h1 : isTwoDigits (c :: d :: e :: rest) = false := rfl
    have hl : specKwAmended (c :: d :: e :: rest) =
        (isTwoDigits (lastTwo (c :: d :: e :: rest)) || false) := rfl
    rw [hl, kwFilter, hz, h1]
    cases hb : isTwoDigits (lastTwo (c :: d :: e :: rest)) <;> simp [hb]

/-- C1: on the worksheet of the end-to-end scenario the two-row identical run
produces two overlapping events in the final output, one per run row, instead
of exactly one: the outer loop advances a single row after synthesising an
event, so every later row of a run starts a shadow copy ending at the same
instant. -/
theorem claim1_run_emits_shadow_events :
    postprocess (sheetEvents sheet41 0 [1] (fun _ => 0)) =
      [⟨"Networks".toList, "Dr. X".toList, "R1".toList, 540, 590⟩,
       ⟨"Networks".toList, "Dr. X".toList, "R1".toList, 585, 590⟩,
       ⟨"Maths".toList, [], [], 630, 635⟩] := by
  decide

/-- C2 counterexample: on a three-row sheet whose time column always parses,
the source selects row 0 as the grid start, while the claimed condition of
three parsing rows among the ten rows following r holds nowhere, so the
claimed detection selects no row at all. -/
theorem claim2_counterexample :
    findStartRow sheet3 0 = some 0 ∧ specStartRow sheet3 0 = none := by
  exact ⟨by decide, by decide⟩

/-- C2 amended: the detection returns r exactly when r is the least row whose
time cell parses and whose ten-row window starting at r itself, row r
included, holds at least three parsing cells, equivalently r plus at least two
of the nine following rows; when no row qualifies the worksheet yields no
events. -/
theorem claim2_start_row_amended (df : Sheet) (timeCol : Nat) (dayCols : List Nat)
    (colDates : Nat → Int) :
    (∀ r0, findStartRow df timeCol = some r0 ↔
      (goodStart df timeCol r0 = true ∧ ∀ q < r0, goodStart df timeCol q = false))
    ∧ (findStartRow df timeCol = none →
        sheetEvents df timeCol dayCols colDates = []) := by
  constructor
  · intro r0
    unfold findStartRow
    rw [findStartAux_some_iff df timeCol (List.length df) 0 r0 (by omega)]
    constructor
    · rintro ⟨_, h2, h3⟩
      exact ⟨h2, fun q hq => h3 q (Nat.zero_le q) hq⟩
    · rintro ⟨h2, h3⟩
      exact ⟨Nat.zero_le r0, h2, fun q _ hq => h3 q hq⟩
  · intro h
    simp [sheetEvents, h]

/-- Witness for the amended C2 theorem at the empty worksheet. -/
theorem claim2_start_row_amended_witness :
    findStartRow [] 0 = none ∧ sheetEvents [] 0 [] (fun _ => 0) = [] := by
  refine ⟨rfl, ?_⟩
  exact (claim2_start_row_amended [] 0 [] (fun _ => 0)).2 rfl

/-- C3 counterexample: the single-character sheet name 5 is selected by the
source through zero padding, although its trailing two characters are not a
two-digit numeral and the name itself is not two digits. -/
theorem claim3_counterexample :
    list_kw_sheets [['5']] = [['5']] ∧ specKwSelect ['5'] = false := by
  exact ⟨by decide, by decide⟩

/-- C3 amended: a worksheet is selected exactly when its trailing two
characters are a two-digit numeral, or its name is a single digit, or its name
is empty; the selected names are returned in ascending order of the integer
key of the trailing two characters, equal keys keeping workbook order. -/
theorem claim3_sheet_selection_amended (names : List (List Char)) :
    list_kw_sheets names = sortByKeyf (names.filter specKwAmended)
    ∧ List.Pairwise (fun a b => keyf a ≤ keyf b) (list_kw_sheets names) := by
  constructor
  · unfold list_kw_sheets
    congr 1
    exact List.filter_congr (fun s _ => kwFilter_eq_specKwAmended s)
  · exact pairwise_sortByKeyf _

/-- C4: every event in the final output of the extractor satisfies a strictly
later end: the filter at line 321 runs before deduplication and deduplication
only keeps events of its input, so a degenerate event never reaches the
returned list whatever raw events the sheet walk produced. -/
theorem claim4_output_events_strict (L : List Event) (e : Event)
    (h : e ∈ postprocess L) : e.start < e.stop := by
  unfold postprocess at h
  have h2 := mem_of_mem_dedupEvents h
  rw [List.mem_filter] at h2
  exact of_decide_eq_true h2.2

/-- Witness for C4 at a one-event list. -/
theorem claim4_output_events_strict_witness :
    (⟨"a".toList, [], [], 0, 5⟩ : Event) ∈ postprocess [⟨"a".toList, [], [], 0, 5⟩]
    ∧ (⟨"a".toList, [], [], 0, 5⟩ : Event).start < (⟨"a".toList, [], [], 0, 5⟩ : Event).stop := by
  refine ⟨by decide, ?_⟩
  exact claim4_output_events_strict [⟨"a".toList, [], [], 0, 5⟩]
    ⟨"a".toList, [], [], 0, 5⟩ (by decide)

/-- C5: deduplication by the exact five-tuple key is idempotent; deduplicating
the concatenation of a list with itself returns exactly the deduplication of
the list, hence the same set of events. -/
theorem claim5_dedup_idempotent (L : List Event) :
    dedupEvents (L ++ L) = dedupEvents L := by
  unfold dedupEvents
  congr 1
  show dedupFold [] (L ++ L) = dedupFold [] L
  have hsplit : dedupFold [] (L ++ L) = dedupFold (dedupFold [] L) L := by
    unfold dedupFold
    rw [List.foldl_append]
  rw [hsplit]
  exact dedupFold_noop (keyInv_dedupFold keyInv_nil L)
    (fun e he => hasKey_dedupFold_of_mem he [])

/-- C6: for an event with a well-formed interval the retention predicate of
line 390 holds exactly when the interval meets the inclusive window from
seven days before now to 120 days after now; the four boundary instances of
the claim are stated alongside. -/
theorem claim6_retention_window (e : Event) (now : Int) :
    (e.start ≤ e.stop →
      (retentionKeep now e = true ↔
        ∃ t : Int, e.start ≤ t ∧ t ≤ e.stop ∧ now - 7 * 1440 ≤ t ∧ t ≤ now + 120 * 1440))
    ∧ (e.stop = now - 8 * 1440 → retentionKeep now e = false)
    ∧ (e.start ≤ e.stop → e.stop = now - 6 * 1440 → retentionKeep now e = true)
    ∧ (e.start = now + 121 * 1440 → retentionKeep now e = false)
    ∧ (e.start ≤ e.stop → e.start = now + 119 * 1440 → retentionKeep now e = true) := by
  unfold retentionKeep
  refine ⟨?_, ?_, ?_, ?_, ?_⟩
  · intro hse
    constructor
    · intro hkeep
      simp only [Bool.and_eq_true, decide_eq_true_eq] at hkeep
      obtain ⟨h1, h2⟩ := hkeep
      rcases le_total e.start (now - 7 * 1440) with hc | hc
      · exact ⟨now - 7 * 1440, hc, h1, le_refl _, by omega⟩
      · exact ⟨e.start, le_refl _, hse, hc, h2⟩
    · rintro ⟨t, h1, h2, h3, h4⟩
      simp only [Bool.and_eq_true, decide_eq_true_eq]
      omega
  · intro hstop
    have hnot : ¬(now - 7 * 1440 ≤ e.stop) := by omega
    rw [decide_eq_false hnot, Bool.false_and]
  · intro hse hstop
    have h1 : now - 7 * 1440 ≤ e.stop := by omega
    have h2 : e.start ≤ now + 120 * 1440 := by omega
    simp only [Bool.and_eq_true, decide_eq_true_eq]
    omega
  · intro hstart
    have hnot : ¬(e.start ≤ now + 120 * 1440) := by omega
    rw [decide_eq_false hnot, Bool.and_false]
  · intro hse hstart
    simp only [Bool.and_eq_true, decide_eq_true_eq]
    omega

/-- Witness for C6: the intersection reading at a concrete event and the
lower boundary exclusion at another. -/
theorem claim6_retention_window_witness :
    (retentionKeep 0 ⟨[], [], [], 0, 10⟩ = true ↔
      ∃ t : Int, (0 : Int) ≤ t ∧ t ≤ 10 ∧ (0 : Int) - 7 * 1440 ≤ t ∧ t ≤ 0 + 120 * 1440)
    ∧ retentionKeep 0 ⟨[], [], [], -20000, -11520⟩ = false := by
  constructor
  · exact (claim6_retention_window ⟨[], [], [], 0, 10⟩ 0).1 (by decide)
  · exact (claim6_retention_window ⟨[], [], [], -20000, -11520⟩ 0).2.1 (by decide)

/-- C7: for every non-blank cell text the computed parts are trimmed and
non-empty, the first becomes the title with the whole text as fallback, the
second the lecturer and the third the room, later parts being dropped; the
two example splittings of the claim close the statement. -/
theorem claim7_field_splitting :
    (∀ cell : List Char, pyStrip cell ≠ [] →
      ((∀ p ∈ pyParts cell, p ≠ [] ∧ pyStrip p = p) ∧
        splitFields cell =
          ((pyParts cell).headD cell, (pyParts cell).getD 1 [], (pyParts cell).getD 2 [])))
    ∧ splitFields "Algorithms | Dr. Smith | R204".toList =
        ("Algorithms".toList, "Dr. Smith".toList, "R204".toList)
    ∧ splitFields "Algorithms".toList = ("Algorithms".toList, [], []) := by
  refine ⟨fun cell _ => ⟨fun p hp => pyParts_mem hp, rfl⟩, by decide, by decide⟩

/-- Witness for C7 at the pipe-separated example cell. -/
theorem claim7_field_splitting_witness :
    pyStrip "Algorithms | Dr. Smith | R204".toList ≠ [] ∧
      (∀ p ∈ pyParts "Algorithms | Dr. Smith | R204".toList, p ≠ [] ∧ pyStrip p = p) := by
  refine ⟨by decide, ?_⟩
  exact (claim7_field_splitting.1 "Algorithms | Dr. Smith | R204".toList (by decide)).1

/-- C8 counterexample: a string with a leading space before 9:30 is not of
the claimed H:MM form, yet the parser accepts it because the source strips
the rendered cell before matching. -/
theorem claim8_counterexample :
    try_parse_time (Cell.text " 9:30".toList) = some ⟨9, 30⟩ ∧
      specTimeOfText " 9:30".toList = none := by
  exact ⟨by decide, by decide⟩

/-- C8 amended: the parser returns a time exactly for strings whose
whitespace-stripped form is one or two digits, a colon and two digits with
hour below 24 and minute below 60, and returns nothing for every other
string. -/
theorem claim8_time_parser_amended (s : List Char) :
    (∀ h m : Nat, try_parse_time (Cell.text s) = some ⟨h, m⟩ ↔
      (specHMMForm (pyStrip s) h m ∧ h < 24 ∧ m < 60))
    ∧ (try_parse_time (Cell.text s) = none ↔
        ∀ h m : Nat, ¬(specHMMForm (pyStrip s) h m ∧ h < 24 ∧ m < 60)) := by
  have hiff : ∀ (h m : Nat), try_parse_time (Cell.text s) = some ⟨h, m⟩ ↔
      (specHMMForm (pyStrip s) h m ∧ h < 24 ∧ m < 60) :=
    fun h m => parseHMM_some_iff (pyStrip s) h m
  refine ⟨hiff, ?_, ?_⟩
  · intro hnone h m hform
    have hsome := (hiff h m).mpr hform
    rw [hnone] at hsome
    cases hsome
  · intro hall
    cases ho : try_parse_time (Cell.text s) with
    | none => rfl
    | some t =>
      exfalso
      obtain ⟨h, m⟩ := t
      exact hall h m ((hiff h m).mp ho)

/-- C9 counterexample: for an event with lecturer Dr. X and room R1 the entry
description carries the German labels Dozent and Raum, not the claimed
Lecturer and Room lines. -/
theorem claim9_counterexample :
    (icsEntryOf ⟨"T".toList, "Dr. X".toList, "R1".toList, 0, 5⟩).description =
        "Dozent: Dr. X\nRaum: R1".toList
    ∧ (icsEntryOf ⟨"T".toList, "Dr. X".toList, "R1".toList, 0, 5⟩).description ≠
        specDescription ⟨"T".toList, "Dr. X".toList, "R1".toList, 0, 5⟩ := by
  exact ⟨by decide, by decide⟩

/-- C9 amended: build_ics emits one entry per event in order; each entry
carries the event title and times, a description joining the German-labelled
lecturer and room lines of the non-empty fields, omitting a line when its
field is empty, and a location equal to the room. -/
theorem claim9_ics_amended (es : List Event) :
    (build_ics es).length = es.length
    ∧ (∀ e ∈ es, icsEntryOf e ∈ build_ics es)
    ∧ (∀ e : Event,
        (icsEntryOf e).name = e.title
        ∧ (icsEntryOf e).beginTime = e.start
        ∧ (icsEntryOf e).endTime = e.stop
        ∧ (icsEntryOf e).location = e.room
        ∧ (icsEntryOf e).description =
            (if e.lecturer = [] ∧ e.room = [] then []
             else if e.lecturer = [] then "Raum: ".toList ++ e.room
             else if e.room = [] then "Dozent: ".toList ++ e.lecturer
             else "Dozent: ".toList ++ e.lecturer ++ '\n' :: ("Raum: ".toList ++ e.room))) := by
  refine ⟨List.length_map es icsEntryOf, fun e he => List.mem_map_of_mem icsEntryOf he, ?_⟩
  intro e
  refine ⟨rfl, rfl, rfl, ?_, ?_⟩
  · show (if e.room ≠ [] then e.room else []) = e.room
    by_cases hr : e.room = []
    · rw [if_neg (by simp [hr]), hr]
    · rw [if_pos hr]
  · show (if (((if e.lecturer ≠ [] then ["Dozent: ".toList ++ e.lecturer] else [])
        ++ (if e.room ≠ [] then ["Raum: ".toList ++ e.room] else [])) ≠ []) then
          List.intercalate "\n".toList
            ((if e.lecturer ≠ [] then ["Dozent: ".toList ++ e.lecturer] else [])
              ++ (if e.room ≠ [] then ["Raum: ".toList ++ e.room] else []))
        else []) = _
    by_cases hl : e.lecturer = []
    · by_cases hr : e.room = []
      · simp [hl, hr]
      · simp [hl, hr, List.intercalate]
    · by_cases hr : e.room = []
      · simp [hl, hr, List.intercalate]
      · simp [hl, hr, List.intercalate]

/-- Witness for the amended C9 theorem at a one-event list. -/
theorem claim9_ics_amended_witness :
    icsEntryOf ⟨"T".toList, [], [], 1, 2⟩ ∈ build_ics [⟨"T".toList, [], [], 1, 2⟩] := by
  exact (claim9_ics_amended [⟨"T".toList, [], [], 1, 2⟩]).2.1
    ⟨"T".toList, [], [], 1, 2⟩ (by decide)

/-- C10: a day-column cell that strips to the empty string or lowercases to
nan is skipped by the guard of lines 297-299, so no event with that cell as
its run start is synthesised. -/
theorem claim10_nan_cell_no_event (df : Sheet) (timeCol : Nat)
    (colDates : Nat → Int) (r c : Nat) (startT : Tod)
    (h : pyStrip (strOfCell (iat df r c)) = [] ∨
      pyLower (pyStrip (strOfCell (iat df r c))) = "nan".toList) :
    cellEvent df timeCol colDates r c startT = none := by
  unfold cellEvent
  dsimp only []
  rw [if_pos h]

/-- Witness for C10 at a cell whose literal text is NaN. -/
theorem claim10_nan_cell_no_event_witness :
    cellEvent [[Cell.text "9:00".toList, Cell.text "NaN".toList]] 0 (fun _ => 0) 0 1 ⟨9, 0⟩
      = none := by
  exact claim10_nan_cell_no_event [[Cell.text "9:00".toList, Cell.text "NaN".toList]] 0
    (fun _ => 0) 0 1 ⟨9, 0⟩ (Or.inr (by decide))

end Stundenplan
